import Mathlib

/-!
Verification of the geonode spatial-upload validation pipeline.

This file embeds the upload-handler code of the repository
(`geonode/layers/uploadhandlers.py`, `geonode/upload/uploadhandlers.py`,
`geonode/upload/ingestionhandlers.py`) as executable Lean definitions and
proves the specified properties about them.

File names are modelled as Lean `String`s.  The Python standard-library
path helpers used by the code (`os.path.split`, `os.path.splitext`,
`os.path.join` in their posix variants) are embedded faithfully, following
the CPython implementations of `posixpath.split`, `genericpath._splitext`
and `posixpath.join`.
-/

namespace Geonode

/-! ## Python path and string primitives -/

/-- Is every character of the list a slash?  (Used by `posixpath.split`,
which leaves an all-slash head untouched.) -/
def allSlash (l : List Char) : Bool := l.all (· == '/')

/-- `posixpath.split` on a list of characters: split at the final slash;
the head keeps no trailing slashes unless it consists only of slashes. -/
def pySplitList (l : List Char) : List Char × List Char :=
  let r := l.reverse
  let tailRev := r.takeWhile (fun c => c != '/')
  let headRev := r.dropWhile (fun c => c != '/')
  let head0 := headRev.reverse
  let head :=
    if head0.isEmpty || allSlash head0 then head0
    else (headRev.dropWhile (fun c => c == '/')).reverse
  (head, tailRev.reverse)

/-- `os.path.split` for strings. -/
def pySplit (s : String) : String × String :=
  let p := pySplitList s.data
  (⟨p.1⟩, ⟨p.2⟩)

/-- `genericpath._splitext` (posix separators) on a list of characters:
the extension starts at the last dot of the final path component, unless
every character of that component before the dot is itself a dot. -/
def pySplitextList (l : List Char) : List Char × List Char :=
  let r := l.reverse
  let fnRev := r.takeWhile (fun c => c != '/')
  let dirRev := r.dropWhile (fun c => c != '/')
  let extRev := fnRev.takeWhile (fun c => c != '.')
  match fnRev.dropWhile (fun c => c != '.') with
  | '.' :: tl =>
      if tl.any (fun c => c != '.') then ((tl ++ dirRev).reverse, '.' :: extRev.reverse)
      else (l, [])
  | _ => (l, [])

/-- `os.path.splitext` for strings. -/
def pySplitext (s : String) : String × String :=
  let p := pySplitextList s.data
  (⟨p.1⟩, ⟨p.2⟩)

/-- `posixpath.join` of two components, on lists of characters. -/
def pyJoinList (a b : List Char) : List Char :=
  if b.head? = some '/' then b
  else if a.isEmpty || a.getLast? = some '/' then a ++ b
  else a ++ '/' :: b

/-- `os.path.join` for strings. -/
def pyJoin (a b : String) : String := ⟨pyJoinList a.data b.data⟩

/-- Python `str.endswith`. -/
def pyEndsWith (s sfx : String) : Bool := decide (sfx.data <:+ s.data)

/-- Python `str.lower` (ASCII). -/
def pyLower (s : String) : String := ⟨s.data.map Char.toLower⟩

/-- Python `str.strip()`: remove surrounding whitespace. -/
def pyStrip (s : String) : String :=
  ⟨((s.data.dropWhile Char.isWhitespace).reverse.dropWhile Char.isWhitespace).reverse⟩

/-- `os.path.basename`. -/
def pyBasename (p : String) : String := (pySplit p).2

/-- `os.path.splitext(os.path.basename(path))[0]`: the directory-stripped,
extension-stripped base name used for shapefile component matching. -/
def pyBasenameNoExt (p : String) : String := (pySplitext (pyBasename p)).1

/-! ## Format classification (`geonode.layers.uploadhandlers.get_upload_handler`) -/

/-- `os.path.splitext(name)[-1].replace(".", "").lower()` as computed at the
top of `get_upload_handler`. -/
def file_extension_of (name : String) : String :=
  ⟨((pySplitextList name.data).2.filter (fun c => c != '.')).map Char.toLower⟩

/-- The handler classes `get_upload_handler` can select. -/
inductive HandlerKind where
  | kmz
  | zippedFile
  | kml
  | shapefile
  | ascii
  | geotiff
  deriving DecidableEq, Repr

/-- Outcome of `get_upload_handler`: a handler class, the bare
`NotImplementedError` raised for a valid zip with an unrecognised
extension, or the "Unsupported file type" `ValidationError` naming the
offending file. -/
inductive ClassifyOutcome where
  | handler (k : HandlerKind)
  | notImplementedError
  | unsupportedError (offending : String)
  deriving DecidableEq, Repr

/-- `geonode.layers.uploadhandlers.get_upload_handler`.  Zip-ness of the
base file (`zipfile.is_zipfile`) is a property of the file's bytes and is
passed in as a boolean. -/
def get_upload_handler (baseFileName : String) (isZipFile : Bool) : ClassifyOutcome :=
  let extension := file_extension_of baseFileName
  if isZipFile then
    if extension = "kmz" then .handler .kmz
    else if extension = "zip" then .handler .zippedFile
    else .notImplementedError
  else if extension = "kml" then .handler .kml
  else if extension = "shp" then .handler .shapefile
  else if extension = "asc" then .handler .ascii
  else if extension = "tif" ∨ extension = "tiff" ∨ extension = "geotif" ∨ extension = "geotiff"
    then .handler .geotiff
  else .unsupportedError baseFileName

/-! ## Shapefile component resolution
(`geonode.layers.uploadhandlers._validate_shapefile_components`) -/

/-- Failure kinds of `_validate_shapefile_components`: a reported
`forms.ValidationError` with its message, or the unhandled `IndexError`
raised by `shp_files[0]` on an empty list. -/
inductive SfErr where
  | validation (msg : String)
  | indexError
  deriving DecidableEq, Repr

/-- The component-matching test of the inner loop:
`path.endswith(additional_component.extension)` together with
`os.path.splitext(os.path.basename(path))[0] == base_name`. -/
def is_component_match (base ext p : String) : Bool :=
  pyEndsWith p ext && (pyBasenameNoExt p == base)

/-- The `shapefile_additional` table: extension and mandatory flag, in
iteration order. -/
def shapefile_additional : List (String × Bool) :=
  [("dbf", true), ("shx", true), ("prj", false), ("xml", false), ("sld", false)]

/-- The inner `for path in possible_files` scan: first candidate matching
extension and base name wins. -/
def find_component (possible : List String) (base ext : String) : Option String :=
  possible.find? (fun p => is_component_match base ext p)

/-- The `for additional_component in shapefile_additional` loop: collect
the matched companion files in order, raising at the first missing
mandatory companion. -/
def collect_components (possible : List String) (base : String) :
    List (String × Bool) → Except SfErr (List (String × String))
  | [] => .ok []
  | (ext, mandatory) :: rest =>
    match find_component possible base ext with
    | some path =>
        match collect_components possible base rest with
        | .ok tail => .ok ((ext, path) :: tail)
        | .error e => .error e
    | none =>
        if mandatory then
          .error (.validation
            ("Could not find '" ++ ext ++ "' file, which is mandatory for shapefile uploads"))
        else collect_components possible base rest

/-- The primary-file test `i.lower().endswith(".shp")`. -/
def is_shp_candidate (i : String) : Bool := pyEndsWith (pyLower i) ".shp"

/-- `geonode.layers.uploadhandlers._validate_shapefile_components`. -/
def validate_shapefile_components (possible : List String) :
    Except SfErr (List (String × String)) :=
  let shp_files := possible.filter is_shp_candidate
  if shp_files.length > 1 then .error (.validation "Only one shapefile per zip is allowed")
  else
    match shp_files with
    | [] => .error .indexError
    | shape :: _ =>
        match collect_components possible (pyBasenameNoExt shape) shapefile_additional with
        | .ok comps => .ok (("shp", shape) :: comps)
        | .error e => .error e

/-- Did an `Except` computation succeed? -/
def isOkE {ε α : Type} (x : Except ε α) : Bool :=
  match x with
  | .ok _ => true
  | .error _ => false

/-! ## KML ground-overlay validation

A parsed KML document is modelled by the query results the handlers
extract from it: the list of `kml:GroundOverlay` elements in document
order, each carrying the text results of its `kml:Icon/kml:href/text()`
query, plus the text results of the `LatLonBox` bound queries. -/

/-- A `kml:GroundOverlay` element: the text nodes returned by the
`kml:Icon/kml:href/text()` xpath query, in document order. -/
structure GroundOverlay where
  hrefTexts : List String
  deriving DecidableEq, Repr

/-- A parsed KML document tree: its ground-overlay elements, and for each
`LatLonBox` parameter name ("north", "south", "east", "west") the text
nodes returned by the corresponding xpath query. -/
structure KmlDoc where
  groundOverlays : List GroundOverlay
  bboxTexts : String → List String

/-- Failure kinds of the KML validators: a reported error with its
message, or the unhandled `IndexError` of an absent icon reference in
`_validate_ground_overlay_kml`. -/
inductive VErr where
  | validation (msg : String)
  | indexError
  deriving DecidableEq, Repr

/-- The image path `validate_kml_ground_overlay` extracts from the single
overlay: `xpath(...)[0].strip()`, with the `IndexError` of an absent href
caught and replaced by the empty string
(`geonode.upload.uploadhandlers.validate_kml_ground_overlay`, lines
126-132). -/
def declared_overlay_image (o : GroundOverlay) : String :=
  match o.hrefTexts with
  | [] => ""
  | h :: _ => pyStrip h

/-- `geonode.upload.uploadhandlers.validate_kml_ground_overlay`: given the
parsed KML document and the companion image file name, validate the
ground-overlay structure. -/
def validate_kml_ground_overlay (doc : KmlDoc) (image_filepath : String) : Except VErr Unit :=
  if doc.groundOverlays.length > 1 then
    .error (.validation "kml files with more than one GroundOverlay are not supported")
  else
    match doc.groundOverlays with
    | [o] =>
        if declared_overlay_image o ≠ image_filepath then
          .error (.validation "Ground overlay image declared in kml file cannot be found")
        else .ok ()
    | _ => .ok ()

/-- `geonode.layers.uploadhandlers._validate_ground_overlay_kml`: look up
the overlay's icon path (`xpath(...)[0]`, an unhandled `IndexError` when
absent, and no whitespace trimming in this generation) and require it to
be a member of the companion file-name list. -/
def validate_ground_overlay_kml (o : GroundOverlay) (possible_files : List String) :
    Except VErr String :=
  match o.hrefTexts with
  | [] => .error .indexError
  | icon_path :: _ =>
      if possible_files.contains icon_path then .ok icon_path
      else .error (.validation "Ground overlay image declared in kml file cannot be found")

/-- Result of `_validate_kml`: a vector KML document, or a raster one with
its resolved overlay image path. -/
inductive KmlResult where
  | vector
  | raster (imagePath : String)
  deriving DecidableEq, Repr

/-- `geonode.layers.uploadhandlers._validate_kml`. -/
def validate_kml (doc : KmlDoc) (other_files : List String) : Except VErr KmlResult :=
  if doc.groundOverlays.length > 1 then
    .error (.validation "kml files with more than one GroundOverlay are not supported")
  else
    match doc.groundOverlays with
    | [o] =>
        match validate_ground_overlay_kml o other_files with
        | .ok p => .ok (.raster p)
        | .error e => .error e
    | _ => .ok .vector

/-- The member test `i.lower().endswith(".kml")` of `KmzHandler`. -/
def is_kml_name (i : String) : Bool := pyEndsWith (pyLower i) ".kml"

/-- The validation part of `geonode.layers.uploadhandlers.KmzHandler.__init__`:
`contents` are the archive's member names and `docOf` gives the parsed
document read from a member.  `kml_files[0]` is read first (zero members
is the `IndexError` branch), the one-kml-only check follows, and the
remaining members become the companion file list for `_validate_kml`. -/
def kmz_handler_validate (contents : List String) (docOf : String → KmlDoc) :
    Except VErr KmlResult :=
  match contents.filter is_kml_name with
  | [] => .error (.validation "Could not find any kml files inside the uploaded kmz")
  | first :: rest =>
      if rest.isEmpty then
        validate_kml (docOf first) (contents.filter (fun i => !(is_kml_name i)))
      else .error (.validation "Only one kml file per kmz is allowed")

/-! ## Ground-overlay rasterization
(`geonode.upload.ingestionhandlers.convert_kml_ground_overlay_to_geotiff`) -/

/-- `_extract_bbox_param`: the first text node of the
`kml:Document/kml:GroundOverlay/kml:LatLonBox/kml:<param>/text()` query
(an unhandled `IndexError`, modelled as `none`, when absent). -/
def extract_bbox_param (doc : KmlDoc) (param : String) : Option String :=
  (doc.bboxTexts param).head?

/-- `convert_kml_ground_overlay_to_geotiff`: builds the `gdal_translate`
command line and the output path next to the companion raster file, and
returns both (the subprocess call itself is outside the embedding; the
function's Python return value is the output path). -/
def convert_kml_ground_overlay_to_geotiff (doc : KmlDoc) (other_file_path : String) :
    Option (List String × String) :=
  match extract_bbox_param doc "west", extract_bbox_param doc "north",
      extract_bbox_param doc "east", extract_bbox_param doc "south" with
  | some ulx, some uly, some lrx, some lry =>
      let dirname := (pySplit other_file_path).1
      let basename := (pySplit other_file_path).2
      let output_path := pyJoin dirname ((pySplitext basename).1 ++ "." ++ "tif")
      some (["gdal_translate", "-of", "GTiff", "-a_srs", "EPSG:4326", "-a_ullr",
             ulx, uly, lrx, lry, other_file_path, output_path], output_path)
  | _, _, _, _ => none

/-! ## Zip extraction
(`geonode.upload.uploadhandlers.extract_zip`,
`geonode.layers.uploadhandlers.save_zipped_file`) -/

/-- `extract_zip`: reads the archive's member-name list, extracts every
member below `destination` (per the spec, "writes every member to the
destination, preserving relative member paths", with no guard on the
member names), and returns `os.path.join(destination, p)` for every
member name `p` — the member names flow into the joined paths entirely
unchecked. -/
def extract_zip (member_names : List String) (destination : String) : List String :=
  member_names.map (fun p => pyJoin destination p)

/-- `geonode.layers.uploadhandlers._get_extension`:
`os.path.splitext(f)[-1].replace(".", "")`. -/
def get_extension (f : String) : String :=
  ⟨(pySplitextList f.data).2.filter (fun c => c != '.')⟩

/-- `geonode.layers.uploadhandlers.save_zipped_file`: extracts every
member to the destination directory and maps each member's extension to
`os.path.join(destination_dir, member)`, again with no check on the
member names. -/
def save_zipped_file (member_names : List String) (destination_dir : String) :
    List (String × String) :=
  member_names.map (fun m => (get_extension m, pyJoin destination_dir m))

/-- Split a character list at slashes into segments. -/
def splitSlashes : List Char → List (List Char)
  | [] => [[]]
  | c :: rest =>
    match splitSlashes rest with
    | [] => [[]]
    | s :: ss => if c = '/' then [] :: s :: ss else (c :: s) :: ss

/-- Modelled from the spec (§4.4, §7: unsafe path traversal "must be
rejected, not silently allowed"): normalize path segments by dropping
empty and "." segments and resolving ".." against the previous
segment. -/
def normSegs (segs : List (List Char)) : List (List Char) :=
  segs.foldl
    (fun acc s =>
      if s = [] ∨ s = ['.'] then acc
      else if s = ['.', '.'] then acc.dropLast
      else acc ++ [s])
    []

/-- Does the first normalized segment list lead the second (i.e. is the
second inside the directory named by the first)? -/
def segsLead : List (List Char) → List (List Char) → Bool
  | [], _ => true
  | _ :: _, [] => false
  | a :: as, b :: bs => a == b && segsLead as bs

/-- Modelled from the spec: a member name escapes the destination
directory when the normalized form of `os.path.join(destination, member)`
does not lie below the normalized destination. -/
def escapes_destination (destination member : String) : Bool :=
  !(segsLead (normSegs (splitSlashes destination.data))
      (normSegs (splitSlashes (pyJoin destination member).data)))

/-! ## Name sanitization
(`geonode.upload.uploadhandlers.clean_name` / `ensure_safe_file_name`)

`clean_name` substitutes the regex `(^[^a-zA-Z\._]+)|([^a-zA-Z\._0-9]+)`
with `"_"` after prefixing a leading digit with an underscore.  `re.sub`
scans left to right and replaces each (maximal) match with one
underscore, so the embedding replaces each maximal run of disallowed
characters with a single underscore; the first, anchored alternative can
only fire at the very start of the string and its character class also
excludes digits. -/

/-- The complement of the regex class `[^a-zA-Z\._0-9]` (second
alternative): characters that survive substitution mid-string. -/
def allowed_char_mid (c : Char) : Bool :=
  c.isAlpha || c == '.' || c == '_' || c.isDigit

/-- The complement of the regex class `[^a-zA-Z\._]` (first, anchored
alternative): digits are not included. -/
def allowed_char_start (c : Char) : Bool :=
  c.isAlpha || c == '.' || c == '_'

/-- `re.sub` scanning for the second alternative `([^a-zA-Z\._0-9]+)`:
at each position a maximal run of disallowed characters is replaced by
one underscore, and scanning resumes after the run. -/
def sub_disallowed_runs : List Char → List Char
  | [] => []
  | c :: rest =>
    if allowed_char_mid c then c :: sub_disallowed_runs rest
    else '_' :: sub_disallowed_runs (rest.dropWhile (fun x => !(allowed_char_mid x)))
termination_by l => l.length
decreasing_by
  · simp only [List.length_cons]; omega
  · simp only [List.length_cons]
    have h : (List.dropWhile (fun x => !(allowed_char_mid x)) rest).length ≤ rest.length :=
      (List.dropWhile_suffix _).length_le
    omega

/-- The full substitution of `clean_name`'s pattern: the anchored first
alternative replaces a leading maximal run drawn from its class (digits
included) by one underscore; everywhere else only the second alternative
can match. -/
def clean_name_sub (l : List Char) : List Char :=
  match l with
  | [] => []
  | c :: _ =>
      if allowed_char_start c then sub_disallowed_runs l
      else '_' :: sub_disallowed_runs (l.dropWhile (fun x => !(allowed_char_start x)))

/-- `geonode.upload.uploadhandlers.clean_name` (default arguments): the
leading-digit underscore prefix followed by the regex substitution;
`name[0]` on an empty string is an `IndexError`, modelled as `none`. -/
def clean_name (name : String) : Option String :=
  match name.data with
  | [] => none
  | c :: rest =>
      some ⟨clean_name_sub (if c.isDigit then '_' :: c :: rest else c :: rest)⟩

/-- `geonode.upload.uploadhandlers.ensure_safe_file_name`: split off the
base name, sanitize it, and rename on disk (returning the joined new
path and a rename flag) only when the sanitized name differs. -/
def ensure_safe_file_name (file_name : String) : Option (String × Bool) :=
  match clean_name (pySplit file_name).2 with
  | none => none
  | some safe =>
      if safe ≠ (pySplit file_name).2 then some (pyJoin (pySplit file_name).1 safe, true)
      else some (file_name, false)

/-- Follows claim C9's words: replace every character outside
`[A-Za-z0-9._]` with an underscore, one underscore per character, after
prefixing a leading digit with an underscore. -/
def clean_name_per_char_spec (name : String) : Option String :=
  match name.data with
  | [] => none
  | c :: rest =>
      some ⟨(if c.isDigit then '_' :: c :: rest else c :: rest).map
        (fun x => if allowed_char_mid x then x else '_')⟩

/-- Run-collapsing description of the substitution, as a structural
state machine: `inRun` records whether the current position continues a
run of disallowed characters already replaced by an underscore. -/
def collapse_runs : Bool → List Char → List Char
  | _, [] => []
  | inRun, c :: rest =>
    if allowed_char_mid c then c :: collapse_runs false rest
    else if inRun then collapse_runs true rest
    else '_' :: collapse_runs true rest

/-- Run-collapsing description including the anchored first alternative. -/
def collapse_lead (l : List Char) : List Char :=
  match l with
  | [] => []
  | c :: _ =>
      if allowed_char_start c then collapse_runs false l
      else '_' :: collapse_runs false (l.dropWhile (fun x => !(allowed_char_start x)))

/-- The run-collapsing form of `clean_name`, used to evaluate it. -/
def clean_name_fast (name : String) : Option String :=
  match name.data with
  | [] => none
  | c :: rest =>
      some ⟨collapse_lead (if c.isDigit then '_' :: c :: rest else c :: rest)⟩

/-! ## Theorems -/

/-- C1: format classification follows the spec's decision order with first
match winning: a valid zip with extension "kmz" selects the KMZ handler; a
valid zip with extension "zip" selects the zipped-shapefile handler; a
valid zip with any other extension is rejected as unsupported (the code's
`NotImplementedError`); otherwise extension "kml" selects the KML handler,
"shp" the shapefile handler, "asc" the ASCII-raster handler, one of
"tif"/"tiff"/"geotif"/"geotiff" the GeoTIFF handler, and any other
extension raises the unsupported-format error naming the offending file;
zip-ness is tested before any extension-only rule (a valid zip never
reaches an extension-only handler). -/
theorem format_classification_decision_order (name : String) (isZipFile : Bool) :
    (isZipFile = true → file_extension_of name = "kmz" →
        get_upload_handler name isZipFile = .handler .kmz) ∧
    (isZipFile = true → file_extension_of name = "zip" →
        get_upload_handler name isZipFile = .handler .zippedFile) ∧
    (isZipFile = true → file_extension_of name ≠ "kmz" → file_extension_of name ≠ "zip" →
        get_upload_handler name isZipFile = .notImplementedError) ∧
    (isZipFile = false → file_extension_of name = "kml" →
        get_upload_handler name isZipFile = .handler .kml) ∧
    (isZipFile = false → file_extension_of name = "shp" →
        get_upload_handler name isZipFile = .handler .shapefile) ∧
    (isZipFile = false → file_extension_of name = "asc" →
        get_upload_handler name isZipFile = .handler .ascii) ∧
    (isZipFile = false → file_extension_of name ∈ ["tif", "tiff", "geotif", "geotiff"] →
        get_upload_handler name isZipFile = .handler .geotiff) ∧
    (isZipFile = false →
        file_extension_of name ∉ ["kml", "shp", "asc", "tif", "tiff", "geotif", "geotiff"] →
        get_upload_handler name isZipFile = .unsupportedError name) ∧
    (isZipFile = true → ∀ k, get_upload_handler name isZipFile = .handler k →
        k = .kmz ∨ k = .zippedFile) := by
  refine ⟨?_, ?_, ?_, ?_, ?_, ?_, ?_, ?_, ?_⟩
  · intro hz he; simp [get_upload_handler, hz, he]
  · intro hz he; simp [get_upload_handler, hz, he]
  · intro hz h1 h2; simp [get_upload_handler, hz, h1, h2]
  · intro hz he; simp [get_upload_handler, hz, he]
  · intro hz he; simp [get_upload_handler, hz, he]
  · intro hz he; simp [get_upload_handler, hz, he]
  · intro hz he
    simp only [List.mem_cons, List.not_mem_nil, or_false] at he
    rcases he with he | he | he | he <;> simp [get_upload_handler, hz, he]
  · intro hz he
    simp only [List.mem_cons, List.not_mem_nil, or_false, not_or] at he
    obtain ⟨h1, h2, h3, h4, h5, h6, h7⟩ := he
    simp [get_upload_handler, hz, h1, h2, h3, h4, h5, h6, h7]
  · intro hz k hk
    by_cases h1 : file_extension_of name = "kmz"
    · simp [get_upload_handler, hz, h1] at hk
      exact Or.inl hk.symm
    · by_cases h2 : file_extension_of name = "zip"
      · simp [get_upload_handler, hz, h1, h2] at hk
        exact Or.inr hk.symm
      · simp [get_upload_handler, hz, h1, h2] at hk

/-- A suffix of a suffix is a suffix: transfer `pyEndsWith` along a
shorter suffix string. -/
theorem pyEndsWith_mono {s a b : String} (h : pyEndsWith s a = true)
    (hab : b.data <:+ a.data) : pyEndsWith s b = true := by
  simp only [pyEndsWith, decide_eq_true_eq] at h ⊢
  exact hab.trans h

theorem find_component_isSome_iff (possible : List String) (base ext : String) :
    (find_component possible base ext).isSome = true ↔
      ∃ p ∈ possible, is_component_match base ext p = true := by
  simp [find_component, List.find?_isSome]

theorem collect_components_exists_ok (possible : List String) (base : String)
    (comps : List (String × Bool))
    (h : ∀ ext, (ext, true) ∈ comps → ∃ p ∈ possible, is_component_match base ext p = true) :
    ∃ l, collect_components possible base comps = .ok l := by
  induction comps with
  | nil => exact ⟨[], rfl⟩
  | cons c rest ih =>
    obtain ⟨ext, mandatory⟩ := c
    obtain ⟨l, hl⟩ := ih (fun e he => h e (List.mem_cons_of_mem _ he))
    cases hf : find_component possible base ext with
    | some path => exact ⟨(ext, path) :: l, by simp [collect_components, hf, hl]⟩
    | none =>
      cases mandatory with
      | false => exact ⟨l, by simp [collect_components, hf, hl]⟩
      | true =>
        exfalso
        have hs : (find_component possible base ext).isSome = true :=
          (find_component_isSome_iff possible base ext).mpr (h ext (List.mem_cons_self _ _))
        rw [hf] at hs
        exact Bool.false_ne_true hs

theorem collect_components_mem (possible : List String) (base : String)
    (comps : List (String × Bool)) (l : List (String × String))
    (h : collect_components possible base comps = .ok l) :
    ∀ pr ∈ l, pr.2 ∈ possible ∧ is_component_match base pr.1 pr.2 = true := by
  induction comps generalizing l with
  | nil =>
    simp only [collect_components] at h
    cases h
    intro pr hpr
    cases hpr
  | cons c rest ih =>
    obtain ⟨ext, mandatory⟩ := c
    simp only [collect_components] at h
    cases hf : find_component possible base ext with
    | some path =>
      rw [hf] at h
      cases hrec : collect_components possible base rest with
      | ok tail =>
        rw [hrec] at h
        cases h
        intro pr hpr
        rcases List.mem_cons.mp hpr with hpr | hpr
        · subst hpr
          have hfind := List.find?_some hf
          have hmem := List.mem_of_find?_eq_some hf
          exact ⟨hmem, hfind⟩
        · exact ih tail hrec pr hpr
      | error e => rw [hrec] at h; cases h
    | none =>
      rw [hf] at h
      cases mandatory with
      | true => cases h
      | false => exact ih l h

theorem collect_components_key_iff (possible : List String) (base : String)
    (comps : List (String × Bool)) (l : List (String × String))
    (h : collect_components possible base comps = .ok l) (ext : String) :
    (∃ p, (ext, p) ∈ l) ↔
      ((∃ m, (ext, m) ∈ comps) ∧ (find_component possible base ext).isSome = true) := by
  induction comps generalizing l with
  | nil =>
    simp only [collect_components] at h
    cases h
    simp
  | cons c rest ih =>
    obtain ⟨e, mandatory⟩ := c
    simp only [collect_components] at h
    cases hf : find_component possible base e with
    | some path =>
      rw [hf] at h
      cases hrec : collect_components possible base rest with
      | ok tail =>
        rw [hrec] at h
        cases h
        by_cases hee : ext = e
        · subst hee
          constructor
          · intro _
            exact ⟨⟨mandatory, List.mem_cons_self _ _⟩, by rw [hf]; rfl⟩
          · intro _
            exact ⟨path, List.mem_cons_self _ _⟩
        · constructor
          · intro ⟨p, hp⟩
            rcases List.mem_cons.mp hp with hp | hp
            · exact absurd (congrArg Prod.fst hp) hee
            · obtain ⟨⟨m, hm⟩, hsome⟩ := (ih tail hrec).mp ⟨p, hp⟩
              exact ⟨⟨m, List.mem_cons_of_mem _ hm⟩, hsome⟩
          · intro ⟨⟨m, hm⟩, hsome⟩
            rcases List.mem_cons.mp hm with hm | hm
            · exact absurd (congrArg Prod.fst hm) hee
            · obtain ⟨p, hp⟩ := (ih tail hrec).mpr ⟨⟨m, hm⟩, hsome⟩
              exact ⟨p, List.mem_cons_of_mem _ hp⟩
      | error e' => rw [hrec] at h; cases h
    | none =>
      rw [hf] at h
      cases mandatory with
      | true => cases h
      | false =>
        by_cases hee : ext = e
        · subst hee
          constructor
          · intro ⟨p, hp⟩
            obtain ⟨_, hsome⟩ := (ih l h).mp ⟨p, hp⟩
            exact ⟨⟨false, List.mem_cons_self _ _⟩, hsome⟩
          · intro ⟨_, hsome⟩
            rw [hf] at hsome
            cases hsome
        · constructor
          · intro hp
            obtain ⟨⟨m, hm⟩, hsome⟩ := (ih l h).mp hp
            exact ⟨⟨m, List.mem_cons_of_mem _ hm⟩, hsome⟩
          · intro ⟨⟨m, hm⟩, hsome⟩
            rcases List.mem_cons.mp hm with hm | hm
            · exact absurd (congrArg Prod.fst hm) hee
            · exact (ih l h).mpr ⟨⟨m, hm⟩, hsome⟩

/-- Witness for C1 at concrete inputs. -/
theorem format_classification_decision_order_witness :
    get_upload_handler "layer.kmz" true = .handler .kmz ∧
    get_upload_handler "layer.xyz" false = .unsupportedError "layer.xyz" := by
  constructor
  · exact (format_classification_decision_order "layer.kmz" true).1 rfl (by decide)
  · exact (format_classification_decision_order "layer.xyz" false).2.2.2.2.2.2.2.1 rfl (by decide)

/-- C4: for every candidate list with exactly one ".shp"-candidate name
together with ".dbf" and ".shx" names whose directory-stripped,
extension-stripped base names equal the primary's, resolution succeeds; in
the returned component set every entry's base name equals the "shp"
entry's base name (case-sensitively), and "prj", "xml" and "sld" are
included exactly when a base-name-matching candidate with that extension
exists. -/
theorem shapefile_resolution_success (possible : List String) (shape : String)
    (hshp : possible.filter is_shp_candidate = [shape])
    (hdbf : ∃ d ∈ possible, pyEndsWith d ".dbf" = true ∧ pyBasenameNoExt d = pyBasenameNoExt shape)
    (hshx : ∃ d ∈ possible, pyEndsWith d ".shx" = true ∧ pyBasenameNoExt d = pyBasenameNoExt shape) :
    isOkE (validate_shapefile_components possible) = true ∧
    ∀ comps, validate_shapefile_components possible = .ok comps →
      (∀ pr ∈ comps, pyBasenameNoExt pr.2 = pyBasenameNoExt shape) ∧
      (∀ ext ∈ (["prj", "xml", "sld"] : List String),
        ((∃ p, (ext, p) ∈ comps) ↔
          ∃ q ∈ possible, pyEndsWith q ext = true ∧
            pyBasenameNoExt q = pyBasenameNoExt shape)) := by
  have hmand : ∀ ext, (ext, true) ∈ shapefile_additional →
      ∃ p ∈ possible, is_component_match (pyBasenameNoExt shape) ext p = true := by
    intro ext hmem
    simp [shapefile_additional] at hmem
    rcases hmem with h | h
    · subst h
      obtain ⟨d, hd, he, hb⟩ := hdbf
      have hed : pyEndsWith d "dbf" = true := pyEndsWith_mono he (by decide)
      exact ⟨d, hd, by simp [is_component_match, hed, hb]⟩
    · subst h
      obtain ⟨d, hd, he, hb⟩ := hshx
      have hed : pyEndsWith d "shx" = true := pyEndsWith_mono he (by decide)
      exact ⟨d, hd, by simp [is_component_match, hed, hb]⟩
  obtain ⟨l, hl⟩ :=
    collect_components_exists_ok possible (pyBasenameNoExt shape) shapefile_additional hmand
  have hval : validate_shapefile_components possible = .ok (("shp", shape) :: l) := by
    simp [validate_shapefile_components, hshp, hl]
  constructor
  · rw [hval]; rfl
  · intro comps hc
    rw [hval] at hc
    cases hc
    constructor
    · intro pr hpr
      rcases List.mem_cons.mp hpr with hpr | hpr
      · subst hpr; rfl
      · have hm := collect_components_mem possible (pyBasenameNoExt shape)
          shapefile_additional l hl pr hpr
        have := hm.2
        simp only [is_component_match, Bool.and_eq_true, beq_iff_eq] at this
        exact this.2
    · intro ext hext
      have hkey := collect_components_key_iff possible (pyBasenameNoExt shape)
        shapefile_additional l hl ext
      simp only [List.mem_cons, List.not_mem_nil, or_false] at hext
      constructor
      · intro ⟨p, hp⟩
        rcases List.mem_cons.mp hp with hp | hp
        · exfalso
          have := congrArg Prod.fst hp
          rcases hext with rfl | rfl | rfl <;> simp at this
        · obtain ⟨_, hsome⟩ := hkey.mp ⟨p, hp⟩
          rw [find_component_isSome_iff] at hsome
          obtain ⟨q, hq, hmatch⟩ := hsome
          simp only [is_component_match, Bool.and_eq_true, beq_iff_eq] at hmatch
          exact ⟨q, hq, hmatch.1, hmatch.2⟩
      · intro ⟨q, hq, he, hb⟩
        have hsome : (find_component possible (pyBasenameNoExt shape) ext).isSome = true :=
          (find_component_isSome_iff _ _ _).mpr ⟨q, hq, by simp [is_component_match, he, hb]⟩
        have hexmem : ∃ m, (ext, m) ∈ shapefile_additional := by
          rcases hext with rfl | rfl | rfl <;> exact ⟨false, by simp [shapefile_additional]⟩
        obtain ⟨p, hp⟩ := hkey.mpr ⟨hexmem, hsome⟩
        exact ⟨p, List.mem_cons_of_mem _ hp⟩

/-- Witness for C4 at a concrete bundle. -/
theorem shapefile_resolution_success_witness :
    isOkE (validate_shapefile_components ["area.shp", "area.dbf", "area.shx", "area.prj"])
      = true :=
  (shapefile_resolution_success ["area.shp", "area.dbf", "area.shx", "area.prj"] "area.shp"
    (by decide) ⟨"area.dbf", by decide⟩ ⟨"area.shx", by decide⟩).1

/-- C5 (code bug): with zero ".shp" candidates the resolver evaluates
`shp_files[0]` on an empty list and crashes with an unhandled
`IndexError` instead of reporting a validation error; with two or more it
does report the ambiguous-structure validation error. -/
theorem shapefile_resolution_shp_count_errors :
    validate_shapefile_components ["x.dbf", "x.shx"] = .error .indexError ∧
    validate_shapefile_components ["a.shp", "b.shp"] =
      .error (.validation "Only one shapefile per zip is allowed") := by
  constructor <;> rfl

/-- C6: with exactly one ".shp" candidate but no matching ".dbf"
(respectively ".shx") companion, resolution fails with the completeness
error naming the missing extension; a missing optional component ("prj",
"xml", "sld") causes no error and is simply absent from the result. -/
theorem shapefile_resolution_missing_mandatory (possible : List String) (shape : String)
    (hshp : possible.filter is_shp_candidate = [shape]) :
    ((¬ ∃ q ∈ possible, is_component_match (pyBasenameNoExt shape) "dbf" q = true) →
      validate_shapefile_components possible = .error (.validation
        "Could not find 'dbf' file, which is mandatory for shapefile uploads")) ∧
    ((∃ q ∈ possible, is_component_match (pyBasenameNoExt shape) "dbf" q = true) →
     (¬ ∃ q ∈ possible, is_component_match (pyBasenameNoExt shape) "shx" q = true) →
      validate_shapefile_components possible = .error (.validation
        "Could not find 'shx' file, which is mandatory for shapefile uploads")) ∧
    (∀ ext ∈ (["prj", "xml", "sld"] : List String),
      (¬ ∃ q ∈ possible, is_component_match (pyBasenameNoExt shape) ext q = true) →
      ((∃ q ∈ possible, is_component_match (pyBasenameNoExt shape) "dbf" q = true) →
       (∃ q ∈ possible, is_component_match (pyBasenameNoExt shape) "shx" q = true) →
        isOkE (validate_shapefile_components possible) = true) ∧
      (∀ comps, validate_shapefile_components possible = .ok comps →
        ¬ ∃ p, (ext, p) ∈ comps)) := by
  refine ⟨?_, ?_, ?_⟩
  · intro hno
    have hf : find_component possible (pyBasenameNoExt shape) "dbf" = none := by
      rw [find_component, List.find?_eq_none]
      intro x hx hpx
      exact hno ⟨x, hx, hpx⟩
    simp [validate_shapefile_components, hshp, collect_components, shapefile_additional, hf]
  · intro hdbf hno
    have hsome : (find_component possible (pyBasenameNoExt shape) "dbf").isSome = true :=
      (find_component_isSome_iff _ _ _).mpr hdbf
    obtain ⟨d, hd⟩ := Option.isSome_iff_exists.mp hsome
    have hf : find_component possible (pyBasenameNoExt shape) "shx" = none := by
      rw [find_component, List.find?_eq_none]
      intro x hx hpx
      exact hno ⟨x, hx, hpx⟩
    simp [validate_shapefile_components, hshp, collect_components, shapefile_additional, hf, hd]
  · intro ext hext hno
    have hf : find_component possible (pyBasenameNoExt shape) ext = none := by
      rw [find_component, List.find?_eq_none]
      intro x hx hpx
      exact hno ⟨x, hx, hpx⟩
    constructor
    · intro hdbf hshx
      have hmand : ∀ e, (e, true) ∈ shapefile_additional →
          ∃ p ∈ possible, is_component_match (pyBasenameNoExt shape) e p = true := by
        intro e hmem
        simp [shapefile_additional] at hmem
        rcases hmem with h | h
        · subst h; exact hdbf
        · subst h; exact hshx
      obtain ⟨l, hl⟩ := collect_components_exists_ok possible (pyBasenameNoExt shape)
        shapefile_additional hmand
      simp [validate_shapefile_components, hshp, hl, isOkE]
    · intro comps hc hmem
      obtain ⟨p, hp⟩ := hmem
      simp only [validate_shapefile_components, hshp, List.length_cons, List.length_nil] at hc
      rw [if_neg (by omega)] at hc
      cases hcol : collect_components possible (pyBasenameNoExt shape) shapefile_additional with
      | error e => rw [hcol] at hc; cases hc
      | ok l =>
        rw [hcol] at hc
        cases hc
        rcases List.mem_cons.mp hp with hp | hp
        · have := congrArg Prod.fst hp
          simp only [List.mem_cons, List.not_mem_nil, or_false] at hext
          rcases hext with rfl | rfl | rfl <;> simp at this
        · have hkey := collect_components_key_iff possible (pyBasenameNoExt shape)
            shapefile_additional l hcol ext
          obtain ⟨_, hsome⟩ := hkey.mp ⟨p, hp⟩
          rw [hf] at hsome
          cases hsome

/-- Witness for C6: a bundle missing its ".dbf" companion. -/
theorem shapefile_resolution_missing_mandatory_witness :
    validate_shapefile_components ["area.shp", "area.shx"] = .error (.validation
        "Could not find 'dbf' file, which is mandatory for shapefile uploads") :=
  (shapefile_resolution_missing_mandatory ["area.shp", "area.shx"] "area.shp" (by decide)).1
    (by decide)

/-- C2: ground-overlay validation of an uploaded KML with its companion
image name has exactly three outcomes determined by the number of
GroundOverlay elements: zero overlays succeed unconditionally; one overlay
succeeds if and only if the trimmed declared href is exactly equal to the
companion file name, and otherwise reports the image-not-found error; two
or more overlays report the multiple-overlay error without examining any
image reference. -/
theorem kml_ground_overlay_validation_cases (doc : KmlDoc) (image_filepath : String) :
    (doc.groundOverlays = [] →
      validate_kml_ground_overlay doc image_filepath = .ok ()) ∧
    (∀ o, doc.groundOverlays = [o] →
      ((validate_kml_ground_overlay doc image_filepath = .ok ()) ↔
        declared_overlay_image o = image_filepath) ∧
      (declared_overlay_image o ≠ image_filepath →
        validate_kml_ground_overlay doc image_filepath =
          .error (.validation "Ground overlay image declared in kml file cannot be found"))) ∧
    (2 ≤ doc.groundOverlays.length →
      validate_kml_ground_overlay doc image_filepath =
        .error (.validation "kml files with more than one GroundOverlay are not supported")) := by
  refine ⟨?_, ?_, ?_⟩
  · intro h
    simp [validate_kml_ground_overlay, h]
  · intro o h
    constructor
    · by_cases he : declared_overlay_image o = image_filepath
      · simp [validate_kml_ground_overlay, h, he]
      · simp [validate_kml_ground_overlay, h, he]
    · intro he
      simp [validate_kml_ground_overlay, h, he]
  · intro h
    have hgt : doc.groundOverlays.length > 1 := h
    simp [validate_kml_ground_overlay, hgt]

/-- Witness for C2: a single overlay whose trimmed href matches the
companion image name, and one whose href does not. -/
theorem kml_ground_overlay_validation_cases_witness :
    validate_kml_ground_overlay ⟨[⟨[" img.png "]⟩], fun _ => []⟩ "img.png" = .ok () ∧
    validate_kml_ground_overlay ⟨[⟨["other.png"]⟩], fun _ => []⟩ "img.png" =
      .error (.validation "Ground overlay image declared in kml file cannot be found") := by
  constructor
  · exact ((kml_ground_overlay_validation_cases ⟨[⟨[" img.png "]⟩], fun _ => []⟩
      "img.png").2.1 ⟨[" img.png "]⟩ rfl).1.mpr (by decide)
  · exact ((kml_ground_overlay_validation_cases ⟨[⟨["other.png"]⟩], fun _ => []⟩
      "img.png").2.1 ⟨["other.png"]⟩ rfl).2 (by decide)

/-- C7: KMZ validation fails with the "could not find any kml files"
error when the archive has zero members ending in ".kml", fails with the
"only one kml file per kmz is allowed" error when it has two or more, and
with exactly one proceeds to ground-overlay validation of that member's
document against the remaining members. -/
theorem kmz_kml_member_count_cases (contents : List String) (docOf : String → KmlDoc) :
    (contents.filter is_kml_name = [] →
      kmz_handler_validate contents docOf =
        .error (.validation "Could not find any kml files inside the uploaded kmz")) ∧
    (2 ≤ (contents.filter is_kml_name).length →
      kmz_handler_validate contents docOf =
        .error (.validation "Only one kml file per kmz is allowed")) ∧
    (∀ k, contents.filter is_kml_name = [k] →
      kmz_handler_validate contents docOf =
        validate_kml (docOf k) (contents.filter (fun i => !(is_kml_name i)))) := by
  refine ⟨?_, ?_, ?_⟩
  · intro h
    simp [kmz_handler_validate, h]
  · intro h
    cases hf : contents.filter is_kml_name with
    | nil => rw [hf] at h; simp at h
    | cons first rest =>
      rw [hf] at h
      cases rest with
      | nil => simp at h
      | cons b bs => simp [kmz_handler_validate, hf]
  · intro k h
    simp [kmz_handler_validate, h]

/-- Witness for C7: a KMZ with exactly one kml member and a vector
document proceeds to (and passes) ground-overlay validation. -/
theorem kmz_kml_member_count_cases_witness :
    kmz_handler_validate ["doc.kml", "img.png"] (fun _ => ⟨[], fun _ => []⟩) =
      .ok .vector := by
  have h := (kmz_kml_member_count_cases ["doc.kml", "img.png"]
    (fun _ => ⟨[], fun _ => []⟩)).2.2 "doc.kml" (by decide)
  rw [h]
  rfl

theorem takeWhile_all {p : Char → Bool} {l : List Char} (h : ∀ c ∈ l, p c = true) :
    l.takeWhile p = l := by
  induction l with
  | nil => rfl
  | cons c rest ih =>
    rw [List.takeWhile_cons, if_pos (h c (List.mem_cons_self _ _))]
    rw [ih (fun d hd => h d (List.mem_cons_of_mem _ hd))]

theorem dropWhile_all {p : Char → Bool} {l : List Char} (h : ∀ c ∈ l, p c = true) :
    l.dropWhile p = [] := by
  induction l with
  | nil => rfl
  | cons c rest ih =>
    rw [List.dropWhile_cons, if_pos (h c (List.mem_cons_self _ _))]
    exact ih (fun d hd => h d (List.mem_cons_of_mem _ hd))

theorem takeWhile_append_all {p : Char → Bool} {l m : List Char}
    (h : ∀ c ∈ l, p c = true) : (l ++ m).takeWhile p = l ++ m.takeWhile p := by
  induction l with
  | nil => simp
  | cons c rest ih => simp_all [List.takeWhile_cons]

theorem dropWhile_append_all {p : Char → Bool} {l m : List Char}
    (h : ∀ c ∈ l, p c = true) : (l ++ m).dropWhile p = m.dropWhile p := by
  induction l with
  | nil => simp
  | cons c rest ih => simp_all [List.dropWhile_cons]

theorem head_dropWhile_false {p : Char → Bool} (l : List Char) {a : Char}
    (h : (l.dropWhile p).head? = some a) : p a = false := by
  induction l with
  | nil => cases h
  | cons c rest ih =>
    rw [List.dropWhile_cons] at h
    by_cases hc : p c = true
    · rw [if_pos hc] at h
      exact ih h
    · rw [if_neg hc] at h
      cases h
      exact Bool.not_eq_true _ |>.mp hc

/-- The tail component of `posixpath.split` never contains a slash. -/
theorem pySplitList_tail_no_slash (l : List Char) :
    ∀ c ∈ (pySplitList l).2, c ≠ '/' := by
  intro c hc
  simp only [pySplitList, List.mem_reverse] at hc
  have := List.mem_takeWhile_imp hc
  simpa using this

/-- The head component of `posixpath.split` is empty, all slashes, or has
no trailing slash. -/
theorem pySplitList_head_cases (l : List Char) :
    (pySplitList l).1 = [] ∨ allSlash (pySplitList l).1 = true ∨
      ((pySplitList l).1).getLast? ≠ some '/' := by
  simp only [pySplitList]
  by_cases hc : ((l.reverse.dropWhile (fun c => c != '/')).reverse).isEmpty
      || allSlash ((l.reverse.dropWhile (fun c => c != '/')).reverse)
  · rw [if_pos hc]
    rcases Bool.or_eq_true _ _ |>.mp hc with h | h
    · exact Or.inl (List.isEmpty_iff.mp h)
    · exact Or.inr (Or.inl h)
  · rw [if_neg hc]
    refine Or.inr (Or.inr ?_)
    rw [List.getLast?_reverse]
    intro hhead
    have := head_dropWhile_false _ hhead
    simp at this

/-- Splitting the join of a split head with a slash-free nonempty tail
recovers both components. -/
theorem pySplitList_pyJoinList (d x : List Char)
    (hd : d = [] ∨ allSlash d = true ∨ d.getLast? ≠ some '/')
    (hx0 : x ≠ []) (hx : ∀ c ∈ x, c ≠ '/') :
    pySplitList (pyJoinList d x) = (d, x) := by
  have hxhead : x.head? ≠ some '/' := by
    intro h
    cases x with
    | nil => cases h
    | cons a t =>
      cases h
      exact hx _ (List.mem_cons_self _ _) rfl
  have hxall : ∀ c ∈ x.reverse, (c != '/') = true := by
    intro c hc
    simpa using hx c (List.mem_reverse.mp hc)
  by_cases hd0 : d = []
  · subst hd0
    have hjoin : pyJoinList [] x = x := by
      simp [pyJoinList, if_neg hxhead]
    rw [hjoin, pySplitList]
    simp only [takeWhile_all hxall, dropWhile_all hxall, List.reverse_nil, List.reverse_reverse]
    rfl
  · by_cases hall : allSlash d = true
    · have hdlast : d.getLast? = some '/' := by
        cases hgl : d.getLast? with
        | none => exact absurd (List.getLast?_eq_none_iff.mp hgl) hd0
        | some a =>
          have ha : a ∈ d := List.mem_of_getLast?_eq_some hgl
          have := List.all_eq_true.mp hall a ha
          simp only [beq_iff_eq] at this
          rw [this]
      have hjoin : pyJoinList d x = d ++ x := by
        simp [pyJoinList, if_neg hxhead, hdlast]
      have hdall : ∀ c ∈ d.reverse, (c != '/') = false := by
        intro c hc
        have := List.all_eq_true.mp hall c (List.mem_reverse.mp hc)
        simp only [beq_iff_eq] at this
        simp [this]
      rw [hjoin, pySplitList]
      simp only [List.reverse_append]
      rw [takeWhile_append_all hxall, dropWhile_append_all hxall]
      have htw : d.reverse.takeWhile (fun c => c != '/') = [] := by
        cases hrev : d.reverse with
        | nil => rfl
        | cons a t =>
          rw [List.takeWhile_cons, if_neg]
          rw [hdall a (by rw [hrev]; exact List.mem_cons_self _ _)]
          simp
      have hdw : d.reverse.dropWhile (fun c => c != '/') = d.reverse := by
        cases hrev : d.reverse with
        | nil => rfl
        | cons a t =>
          rw [List.dropWhile_cons, if_neg]
          rw [hdall a (by rw [hrev]; exact List.mem_cons_self _ _)]
          simp
      rw [htw, hdw]
      simp only [List.append_nil, List.reverse_reverse]
      rw [if_pos (by rw [hall]; simp)]
    · have hdlast : d.getLast? ≠ some '/' := by
        rcases hd with h | h | h
        · exact absurd h hd0
        · exact absurd h hall
        · exact h
      have hjoin : pyJoinList d x = d ++ '/' :: x := by
        simp only [pyJoinList, if_neg hxhead]
        rw [if_neg]
        simp only [List.isEmpty_iff, Bool.or_eq_true, decide_eq_true_eq]
        push_neg
        exact ⟨hd0, hdlast⟩
      rw [hjoin, pySplitList]
      have hrw : (d ++ '/' :: x).reverse = x.reverse ++ '/' :: d.reverse := by
        simp
      rw [hrw]
      rw [takeWhile_append_all hxall, dropWhile_append_all hxall]
      rw [List.takeWhile_cons, List.dropWhile_cons]
      simp only [bne_self_eq_false, Bool.false_eq_true, if_false]
      have hdrev : d.reverse.head? ≠ some '/' := by
        rw [List.head?_reverse]
        exact hdlast
      have hddrop : d.reverse.dropWhile (fun c => c == '/') = d.reverse := by
        cases hrev : d.reverse with
        | nil => rfl
        | cons a t =>
          rw [List.dropWhile_cons, if_neg]
          have ha : a ≠ '/' := fun h => hdrev (by rw [hrev, h]; rfl)
          simp [ha]
      have hne : ¬ (((('/' :: d.reverse).reverse).isEmpty
          || allSlash (('/' :: d.reverse).reverse)) = true) := by
        simp only [Bool.or_eq_true, List.isEmpty_iff]
        push_neg
        constructor
        · simp
        · intro hall2
          apply hall
          simp only [allSlash, List.all_eq_true] at hall2 ⊢
          intro c hc
          exact hall2 c (by simp [hc])
      rw [if_neg hne]
      rw [List.dropWhile_cons]
      simp only [beq_self_eq_true, if_true, List.append_nil, List.reverse_reverse]
      rw [hddrop]
      simp

/-- The root component of `splitext` only contains characters of the
input. -/
theorem pySplitextList_root_subset (l : List Char) :
    ∀ c ∈ (pySplitextList l).1, c ∈ l := by
  intro c hc
  simp only [pySplitextList] at hc
  cases hdw : (l.reverse.takeWhile (fun c => c != '/')).dropWhile (fun c => c != '.') with
  | nil =>
    rw [hdw] at hc
    simpa using hc
  | cons a tl =>
    rw [hdw] at hc
    by_cases ha : a = '.'
    · subst ha
      simp only at hc
      by_cases hany : tl.any (fun c => c != '.') = true
      · rw [if_pos hany] at hc
        simp only [List.mem_reverse, List.mem_append] at hc
        rw [← List.mem_reverse]
        rcases hc with hc | hc
        · have h1 : c ∈ '.' :: tl := List.mem_cons_of_mem _ hc
          rw [← hdw] at h1
          have h2 := (List.dropWhile_sublist _).subset h1
          exact (List.takeWhile_sublist _).subset h2
        · exact (List.dropWhile_sublist _).subset hc
      · rw [if_neg hany] at hc
        simpa using hc
    · have hfalse := head_dropWhile_false (l.reverse.takeWhile (fun c => c != '/'))
        (a := a) (by rw [hdw]; rfl)
      have heq : a = '.' := by simpa using hfalse
      exact absurd heq ha

/-- `splitext` of a slash-free stem with an appended dot-extension, when
the stem has a non-dot character, recovers the stem and the extension. -/
theorem pySplitextList_append_ext (b1 e : List Char)
    (hb : ∀ c ∈ b1, c ≠ '/') (hbd : b1.any (fun c => c != '.') = true)
    (he : ∀ c ∈ e, c ≠ '.' ∧ c ≠ '/') :
    pySplitextList (b1 ++ '.' :: e) = (b1, '.' :: e) := by
  have herev : ∀ c ∈ e.reverse, ((c != '/') = true) ∧ ((c != '.') = true) := by
    intro c hc
    have := he c (List.mem_reverse.mp hc)
    constructor <;> simp [this.1, this.2]
  have hbrev : ∀ c ∈ b1.reverse, (c != '/') = true := by
    intro c hc
    simpa using hb c (List.mem_reverse.mp hc)
  simp only [pySplitextList]
  have hrw : (b1 ++ '.' :: e).reverse = e.reverse ++ '.' :: b1.reverse := by
    simp
  rw [hrw]
  have htakeSlash : (e.reverse ++ '.' :: b1.reverse).takeWhile (fun c => c != '/')
      = e.reverse ++ '.' :: b1.reverse := by
    apply takeWhile_all
    intro c hc
    simp only [List.mem_append, List.mem_cons] at hc
    rcases hc with hc | hc | hc
    · exact (herev c hc).1
    · simp [hc]
    · exact hbrev c hc
  have hdropSlash : (e.reverse ++ '.' :: b1.reverse).dropWhile (fun c => c != '/') = [] := by
    apply dropWhile_all
    intro c hc
    simp only [List.mem_append, List.mem_cons] at hc
    rcases hc with hc | hc | hc
    · exact (herev c hc).1
    · simp [hc]
    · exact hbrev c hc
  rw [htakeSlash, hdropSlash]
  have heall : ∀ c ∈ e.reverse, (c != '.') = true := fun c hc => (herev c hc).2
  rw [takeWhile_append_all heall, dropWhile_append_all heall]
  rw [List.takeWhile_cons, List.dropWhile_cons]
  simp only [bne_self_eq_false, Bool.false_eq_true, if_false]
  have hbany : b1.reverse.any (fun c => c != '.') = true := by
    rw [List.any_reverse]
    exact hbd
  rw [if_pos hbany]
  simp

/-- Two strings with the same character data are equal. -/
theorem string_eq_of_data {a b : String} (h : a.data = b.data) : a = b := by
  cases a
  cases b
  simp_all

/-- C8: for every KML document carrying all four LatLonBox bounds and
every companion raster path (with a non-degenerate base name), the
rasterizer invokes the conversion tool with exactly the arguments GTiff
output format, hard-coded EPSG:4326, the affine corner coordinates
west/north/east/south, the input path, and an output path lying in the
companion's directory with the companion's base name and extension
".tif"; that output path is the returned value. -/
theorem geotiff_conversion_command (doc : KmlDoc) (path : String) (w n e s : String)
    (hw : extract_bbox_param doc "west" = some w)
    (hn : extract_bbox_param doc "north" = some n)
    (he : extract_bbox_param doc "east" = some e)
    (hs : extract_bbox_param doc "south" = some s)
    (hbase : ((pySplitext (pySplit path).2).1).data.any (fun c => c != '.') = true) :
    (convert_kml_ground_overlay_to_geotiff doc path).isSome = true ∧
    ∀ cmd out, convert_kml_ground_overlay_to_geotiff doc path = some (cmd, out) →
      cmd = ["gdal_translate", "-of", "GTiff", "-a_srs", "EPSG:4326", "-a_ullr",
             w, n, e, s, path, out] ∧
      (pySplit out).1 = (pySplit path).1 ∧
      (pySplitext (pySplit out).2).1 = (pySplitext (pySplit path).2).1 ∧
      (pySplitext (pySplit out).2).2 = ".tif" := by
  have hconv : convert_kml_ground_overlay_to_geotiff doc path =
      some (["gdal_translate", "-of", "GTiff", "-a_srs", "EPSG:4326", "-a_ullr",
             w, n, e, s, path,
             pyJoin (pySplit path).1 ((pySplitext (pySplit path).2).1 ++ "." ++ "tif")],
            pyJoin (pySplit path).1 ((pySplitext (pySplit path).2).1 ++ "." ++ "tif")) := by
    rw [convert_kml_ground_overlay_to_geotiff, hw, hn, he, hs]
  have hsplitout : pySplit (pyJoin (pySplit path).1
      ((pySplitext (pySplit path).2).1 ++ "." ++ "tif")) =
      ((pySplit path).1, (pySplitext (pySplit path).2).1 ++ "." ++ "tif") := by
    have hb1 : ∀ c ∈ ((pySplitext (pySplit path).2).1).data, c ≠ '/' := by
      intro c hc
      have h1 : c ∈ ((pySplit path).2).data := pySplitextList_root_subset _ c hc
      exact pySplitList_tail_no_slash path.data c h1
    have hx : ∀ c ∈ (((pySplitext (pySplit path).2).1).data ++ '.' :: "tif".data), c ≠ '/' := by
      intro c hc
      rcases List.mem_append.mp hc with hc | hc
      · exact hb1 c hc
      · rcases List.mem_cons.mp hc with hc | hc
        · subst hc; decide
        · have htif : ∀ x ∈ "tif".data, x ≠ '/' := by decide
          exact htif c hc
    have hx0 : (((pySplitext (pySplit path).2).1).data ++ '.' :: "tif".data) ≠ [] := by
      simp
    have hd := pySplitList_head_cases path.data
    have hkey := pySplitList_pyJoinList ((pySplit path).1).data
      (((pySplitext (pySplit path).2).1).data ++ '.' :: "tif".data) hd hx0 hx
    have houtdata : (pyJoin (pySplit path).1
        ((pySplitext (pySplit path).2).1 ++ "." ++ "tif")).data =
        pyJoinList ((pySplit path).1).data
          (((pySplitext (pySplit path).2).1).data ++ '.' :: "tif".data) := by
      simp [pyJoin]
    rw [pySplit, houtdata, hkey]
    simp only [Prod.mk.injEq]
    constructor
    · trivial
    · apply string_eq_of_data
      simp
  have hextout : pySplitext ((pySplitext (pySplit path).2).1 ++ "." ++ "tif") =
      ((pySplitext (pySplit path).2).1, ".tif") := by
    have hb1 : ∀ c ∈ ((pySplitext (pySplit path).2).1).data, c ≠ '/' := by
      intro c hc
      have h1 : c ∈ ((pySplit path).2).data := pySplitextList_root_subset _ c hc
      exact pySplitList_tail_no_slash path.data c h1
    have hkey := pySplitextList_append_ext ((pySplitext (pySplit path).2).1).data
      "tif".data hb1 hbase (by decide)
    have hdata : ((pySplitext (pySplit path).2).1 ++ "." ++ "tif").data =
        ((pySplitext (pySplit path).2).1).data ++ '.' :: "tif".data := by
      simp
    rw [pySplitext, hdata, hkey]
  refine ⟨by rw [hconv]; rfl, ?_⟩
  intro cmd out hco
  rw [hconv] at hco
  cases hco
  refine ⟨rfl, ?_, ?_, ?_⟩
  · rw [hsplitout]
  · rw [hsplitout]
    simp only
    rw [hextout]
  · rw [hsplitout]
    simp only
    rw [hextout]

/-- Witness for C8 at a concrete document and companion path. -/
theorem geotiff_conversion_command_witness :
    (convert_kml_ground_overlay_to_geotiff
      ⟨[], fun p => if p = "west" then ["20.0"] else if p = "north" then ["30.0"]
        else if p = "east" then ["40.0"] else ["10.0"]⟩ "/tmp/img.png").isSome = true ∧
    (pySplit "/tmp/img.tif").1 = (pySplit "/tmp/img.png").1 ∧
    (pySplitext (pySplit "/tmp/img.tif").2).2 = ".tif" := by
  have h := geotiff_conversion_command
    ⟨[], fun p => if p = "west" then ["20.0"] else if p = "north" then ["30.0"]
      else if p = "east" then ["40.0"] else ["10.0"]⟩ "/tmp/img.png"
    "20.0" "30.0" "40.0" "10.0" rfl rfl rfl rfl (by decide)
  refine ⟨h.1, ?_, ?_⟩
  · exact (h.2 _ "/tmp/img.tif" rfl).2.1
  · exact (h.2 _ "/tmp/img.tif" rfl).2.2.2

/-- C3 (code bug): zip extraction performs no traversal check — for the
member name "../evil.tif" both `extract_zip` and `save_zipped_file`
succeed (no error of any kind is raised) and produce a target path that
escapes the destination directory, contrary to the required rejection of
destination-escaping member paths. -/
theorem zip_extraction_allows_traversal :
    extract_zip ["../evil.tif"] "/tmp/uploads/work" = ["/tmp/uploads/work/../evil.tif"] ∧
    save_zipped_file ["../evil.tif"] "/tmp/uploads/work" =
      [("tif", "/tmp/uploads/work/../evil.tif")] ∧
    escapes_destination "/tmp/uploads/work" "../evil.tif" = true := by
  refine ⟨rfl, rfl, ?_⟩
  decide

/-- Characters allowed at the start are allowed everywhere. -/
theorem mid_of_start {c : Char} (h : allowed_char_start c = true) :
    allowed_char_mid c = true := by
  simp only [allowed_char_start, Bool.or_eq_true] at h
  simp only [allowed_char_mid, Bool.or_eq_true]
  tauto

/-- ASCII letters are not digits. -/
theorem alpha_not_digit (c : Char) (h : c.isAlpha = true) : c.isDigit = false := by
  cases hD : c.isDigit with
  | false => rfl
  | true =>
    exfalso
    simp only [Char.isDigit, Bool.and_eq_true, decide_eq_true_eq] at hD
    simp only [Char.isAlpha, Char.isUpper, Char.isLower, Bool.or_eq_true,
      Bool.and_eq_true, decide_eq_true_eq] at h
    simp only [UInt32.le_def, BitVec.le_def] at h hD
    have e1 : ((65 : UInt32).toBitVec).toNat = 65 := by decide
    have e2 : ((90 : UInt32).toBitVec).toNat = 90 := by decide
    have e3 : ((97 : UInt32).toBitVec).toNat = 97 := by decide
    have e4 : ((122 : UInt32).toBitVec).toNat = 122 := by decide
    have e5 : ((48 : UInt32).toBitVec).toNat = 48 := by decide
    have e6 : ((57 : UInt32).toBitVec).toNat = 57 := by decide
    rw [e5, e6] at hD
    rcases h with ⟨h1, h2⟩ | ⟨h1, h2⟩
    · rw [e1] at h1; rw [e2] at h2; omega
    · rw [e3] at h1; rw [e4] at h2; omega

/-- Characters allowed at the start are never digits. -/
theorem start_not_digit {c : Char} (h : allowed_char_start c = true) :
    c.isDigit = false := by
  simp only [allowed_char_start, Bool.or_eq_true, beq_iff_eq] at h
  rcases h with (h | h) | h
  · exact alpha_not_digit c h
  · subst h; decide
  · subst h; decide

theorem collapse_runs_true_eq (l : List Char) :
    collapse_runs true l =
      collapse_runs false (l.dropWhile (fun x => !(allowed_char_mid x))) := by
  induction l with
  | nil => rfl
  | cons c rest ih =>
    cases hc : allowed_char_mid c with
    | true => simp [collapse_runs, hc, List.dropWhile_cons]
    | false => simp [collapse_runs, hc, List.dropWhile_cons, ih]

theorem sub_runs_eq_aux : ∀ n (l : List Char), l.length ≤ n →
    sub_disallowed_runs l = collapse_runs false l := by
  intro n
  induction n with
  | zero =>
    intro l hl
    have h0 : l = [] := List.length_eq_zero.mp (Nat.le_zero.mp hl)
    subst h0
    simp [sub_disallowed_runs, collapse_runs]
  | succ n ih =>
    intro l hl
    cases l with
    | nil => simp [sub_disallowed_runs, collapse_runs]
    | cons c rest =>
      have hlen : rest.length ≤ n := by
        simp only [List.length_cons] at hl
        omega
      cases hc : allowed_char_mid c with
      | true =>
        simp only [sub_disallowed_runs, collapse_runs, hc, if_true]
        exact congrArg (c :: ·) (ih rest hlen)
      | false =>
        simp only [sub_disallowed_runs, collapse_runs, hc, Bool.false_eq_true, if_false]
        have hdl : (rest.dropWhile (fun x => !(allowed_char_mid x))).length ≤ n :=
          le_trans (List.dropWhile_suffix _).length_le hlen
        rw [ih _ hdl, collapse_runs_true_eq]

/-- The regex scan for the second alternative equals the run-collapsing
machine. -/
theorem sub_runs_eq (l : List Char) : sub_disallowed_runs l = collapse_runs false l :=
  sub_runs_eq_aux l.length l le_rfl

/-- The full substitution equals its run-collapsing description. -/
theorem clean_name_sub_eq_collapse (l : List Char) : clean_name_sub l = collapse_lead l := by
  cases l with
  | nil => rfl
  | cons c rest =>
    simp only [clean_name_sub, collapse_lead]
    cases hc : allowed_char_start c with
    | true => simp [sub_runs_eq]
    | false => simp [sub_runs_eq]

/-- `clean_name` computed through the structural machine. -/
theorem clean_name_eq_fast (name : String) : clean_name name = clean_name_fast name := by
  obtain ⟨data⟩ := name
  cases data with
  | nil => rfl
  | cons c rest =>
    simp only [clean_name, clean_name_fast, clean_name_sub_eq_collapse]

theorem collapse_runs_mem (l : List Char) (b : Bool) :
    ∀ c ∈ collapse_runs b l, allowed_char_mid c = true := by
  induction l generalizing b with
  | nil => intro c hc; cases hc
  | cons a rest ih =>
    intro c hc
    cases ha : allowed_char_mid a with
    | true =>
      simp only [collapse_runs, ha, if_true] at hc
      rcases List.mem_cons.mp hc with hc | hc
      · subst hc; exact ha
      · exact ih false c hc
    | false =>
      cases b with
      | true =>
        simp only [collapse_runs, ha, Bool.false_eq_true, if_false, if_true] at hc
        exact ih true c hc
      | false =>
        simp only [collapse_runs, ha, Bool.false_eq_true, if_false] at hc
        rcases List.mem_cons.mp hc with hc | hc
        · subst hc; decide
        · exact ih true c hc

theorem collapse_runs_all_id (l : List Char) (b : Bool)
    (h : ∀ c ∈ l, allowed_char_mid c = true) : collapse_runs b l = l := by
  induction l generalizing b with
  | nil => rfl
  | cons a rest ih =>
    have ha : allowed_char_mid a = true := h a (List.mem_cons_self _ _)
    simp only [collapse_runs, ha, if_true]
    exact congrArg (a :: ·) (ih false (fun c hc => h c (List.mem_cons_of_mem _ hc)))

theorem collapse_lead_mem (l : List Char) :
    ∀ c ∈ collapse_lead l, allowed_char_mid c = true := by
  cases l with
  | nil => intro c hc; cases hc
  | cons a rest =>
    intro c hc
    simp only [collapse_lead] at hc
    cases ha : allowed_char_start a with
    | true =>
      rw [ha] at hc
      simp only [if_true] at hc
      exact collapse_runs_mem _ _ c hc
    | false =>
      rw [ha] at hc
      simp only [Bool.false_eq_true, if_false] at hc
      rcases List.mem_cons.mp hc with hc | hc
      · subst hc; decide
      · exact collapse_runs_mem _ _ c hc

theorem collapse_lead_head (l : List Char) (h : l ≠ []) :
    ∃ a tl, collapse_lead l = a :: tl ∧ allowed_char_start a = true := by
  cases l with
  | nil => exact absurd rfl h
  | cons c rest =>
    cases hc : allowed_char_start c with
    | true =>
      refine ⟨c, collapse_runs false rest, ?_, hc⟩
      simp [collapse_lead, collapse_runs, hc, mid_of_start hc]
    | false =>
      refine ⟨'_', collapse_runs false ((c :: rest).dropWhile (fun x => !(allowed_char_start x))),
        ?_, by decide⟩
      simp [collapse_lead, hc]

/-- Compute `clean_name` on a string whose data starts with a non-digit. -/
theorem clean_name_of_data {m : String} {a : Char} {tl : List Char}
    (hd : m.data = a :: tl) (hdigit : a.isDigit = false) :
    clean_name m = some ⟨clean_name_sub (a :: tl)⟩ := by
  obtain ⟨data⟩ := m
  simp only at hd
  subst hd
  simp [clean_name, hdigit]

/-- Unfolding equation for `ensure_safe_file_name` when sanitization
succeeds. -/
theorem ensure_safe_eq_of_some {path safe : String}
    (hcn : clean_name (pySplit path).2 = some safe) :
    ensure_safe_file_name path =
      if safe ≠ (pySplit path).2 then some (pyJoin (pySplit path).1 safe, true)
      else some (path, false) := by
  rw [ensure_safe_file_name, hcn]

/-- Unfolding equation for `ensure_safe_file_name` when the base name is
empty. -/
theorem ensure_safe_eq_of_none {path : String}
    (hcn : clean_name (pySplit path).2 = none) :
    ensure_safe_file_name path = none := by
  rw [ensure_safe_file_name, hcn]

/-- C9 counterexample: on "a--b.shp" the code collapses the run of two
disallowed characters into a single underscore, while the claim's
per-character replacement would produce two underscores. -/
theorem clean_name_not_per_char :
    clean_name "a--b.shp" = some "a_b.shp" ∧
    clean_name_per_char_spec "a--b.shp" = some "a__b.shp" ∧
    clean_name "a--b.shp" ≠ clean_name_per_char_spec "a--b.shp" := by
  have h1 : clean_name "a--b.shp" = some "a_b.shp" :=
    (clean_name_eq_fast "a--b.shp").trans (by decide)
  have h2 : clean_name_per_char_spec "a--b.shp" = some "a__b.shp" := by decide
  refine ⟨h1, h2, ?_⟩
  rw [h1, h2]
  decide

/-- C9 (amended): name sanitization replaces every maximal run of
characters outside `[A-Za-z0-9._]` with a single underscore (a leading
run of characters outside `[A-Za-z._]`, digits included, likewise
collapses to one underscore) and prefixes a leading digit with an
underscore, so `clean_name "2023-survey.shp" = "_2023_survey.shp"` and
`clean_name "My File!.shp" = "My_File_.shp"`; the on-disk file is renamed
only when the sanitized name differs from the original base name, and the
(possibly new) path is returned. -/
theorem clean_name_sanitization_amended :
    (∀ name, clean_name name = clean_name_fast name) ∧
    clean_name "2023-survey.shp" = some "_2023_survey.shp" ∧
    clean_name "My File!.shp" = some "My_File_.shp" ∧
    (∀ path p, ensure_safe_file_name path = some (p, true) →
      clean_name (pySplit path).2 ≠ some ((pySplit path).2) ∧
      ∃ safe, clean_name (pySplit path).2 = some safe ∧ p = pyJoin (pySplit path).1 safe) ∧
    (∀ path p, ensure_safe_file_name path = some (p, false) →
      p = path ∧ clean_name (pySplit path).2 = some ((pySplit path).2)) := by
  refine ⟨clean_name_eq_fast, (clean_name_eq_fast _).trans (by decide),
    (clean_name_eq_fast _).trans (by decide), ?_, ?_⟩
  · intro path p h
    cases hcn : clean_name (pySplit path).2 with
    | none => rw [ensure_safe_eq_of_none hcn] at h; cases h
    | some safe =>
      rw [ensure_safe_eq_of_some hcn] at h
      by_cases hne : safe = (pySplit path).2
      · rw [if_neg (by simpa using hne)] at h
        cases h
      · rw [if_pos (by simpa using hne)] at h
        cases h
        refine ⟨?_, safe, rfl, rfl⟩
        intro hc
        exact hne (Option.some.inj hc)
  · intro path p h
    cases hcn : clean_name (pySplit path).2 with
    | none => rw [ensure_safe_eq_of_none hcn] at h; cases h
    | some safe =>
      rw [ensure_safe_eq_of_some hcn] at h
      by_cases hne : safe = (pySplit path).2
      · rw [if_neg (by simpa using hne)] at h
        cases h
        exact ⟨rfl, by rw [hne]⟩
      · rw [if_pos (by simpa using hne)] at h
        cases h

/-- Witness for C9's amended rename clause: sanitizing
"/tmp/My File!.shp" does rename, so the base name was not sanitized. -/
theorem clean_name_sanitization_amended_witness :
    clean_name (pySplit "/tmp/My File!.shp").2 ≠ some ((pySplit "/tmp/My File!.shp").2) :=
  (clean_name_sanitization_amended.2.2.2.1 "/tmp/My File!.shp" "/tmp/My_File_.shp"
    (by simp only [ensure_safe_file_name, clean_name_eq_fast]; decide)).1

/-- C10: name sanitization is idempotent — for every non-empty name,
sanitizing an already-sanitized name changes nothing — and consequently
`ensure_safe_file_name` on a path whose base name is already sanitized
performs no rename and returns the path unchanged. -/
theorem clean_name_idempotent :
    (∀ name : String, name ≠ "" → ∀ m, clean_name name = some m → clean_name m = some m) ∧
    (∀ path : String, clean_name (pySplit path).2 = some ((pySplit path).2) →
      ensure_safe_file_name path = some (path, false)) := by
  constructor
  · intro name hne m hm
    obtain ⟨data⟩ := name
    cases data with
    | nil => simp [clean_name] at hm
    | cons c rest =>
      have hm' : (⟨clean_name_sub (if c.isDigit then '_' :: c :: rest else c :: rest)⟩ : String)
          = m := by
        simpa [clean_name] using hm
      have hL : m.data = collapse_lead (if c.isDigit then '_' :: c :: rest else c :: rest) := by
        rw [← hm']
        exact clean_name_sub_eq_collapse _
      have hne' : (if c.isDigit then '_' :: c :: rest else c :: rest) ≠ [] := by
        by_cases hd : c.isDigit = true <;> simp [hd]
      obtain ⟨a, tl, hcl, ha⟩ := collapse_lead_head _ hne'
      have hmdata : m.data = a :: tl := hL.trans hcl
      have hmem : ∀ x ∈ m.data, allowed_char_mid x = true := by
        rw [hL]
        exact collapse_lead_mem _
      have h1 : clean_name m = some ⟨clean_name_sub (a :: tl)⟩ :=
        clean_name_of_data hmdata (start_not_digit ha)
      have h2 : clean_name_sub (a :: tl) = a :: tl := by
        rw [clean_name_sub_eq_collapse]
        simp only [collapse_lead, ha, if_true]
        exact collapse_runs_all_id _ false (by rw [← hmdata]; exact hmem)
      rw [h1, h2]
      exact congrArg some (string_eq_of_data (by rw [hmdata]))
  · intro path hcn
    simp [ensure_safe_file_name, hcn]

/-- Witness for C10 at concrete names. -/
theorem clean_name_idempotent_witness :
    clean_name "a_b.shp" = some "a_b.shp" ∧
    ensure_safe_file_name "/tmp/a_b.shp" = some ("/tmp/a_b.shp", false) := by
  constructor
  · exact clean_name_idempotent.1 "a b.shp" (by decide) "a_b.shp"
      ((clean_name_eq_fast _).trans (by decide))
  · exact clean_name_idempotent.2 "/tmp/a_b.shp" ((clean_name_eq_fast _).trans (by decide))

end Geonode
